import Mathlib

/-!
Verification of the consanguinity gramplet (`consformatter.py`) against its
natural-language specification.

The formatter (`ConsFormatter`, `SimpleStringBuffer`) is embedded from
`src/consformatter.py`.  The pedigree engine (`pedigree.py`, class `Pedigree`)
is not part of the provided sources; where a claim depends on it, the engine is
modelled from the specification (sections 3, 4.1-4.5) and the corresponding
definitions say so in their doc comments.

External collaborators (the Gramps record store, name displayer, relationship
string calculator) are abstracted as function parameters; they are explicitly
out of scope for the specification.
-/

/-! ### Message strings and limits (consformatter.py lines 70-93) -/

/-- Message `MSG_UNKNOWN_NAME` (line 70). -/
def MSG_UNKNOWN_NAME : String := "(unknown)"

/-- Message `MSG_RELATIONSHIP` (line 71). -/
def MSG_RELATIONSHIP : String := "Relationship:"

/-- Message `MSG_RELATIONSHIPS` (line 72). -/
def MSG_RELATIONSHIPS : String := "Relationships:"

/-- Message `MSG_COMMON_ANC` (line 73; the stray leading quote is in the source). -/
def MSG_COMMON_ANC : String := "\"Common ancestor:"

/-- Message `MSG_COMMON_ANCS` (line 74). -/
def MSG_COMMON_ANCS : String := "Common ancestors:"

/-- Message `MSG_MORE_SPOUSE_RELS` (line 75). -/
def MSG_MORE_SPOUSE_RELS : String := "More spouse relationships not shown."

/-- Message `MSG_MORE_RELS` (line 76). -/
def MSG_MORE_RELS : String := "More relationships not shown."

/-- Message `MSG_PED_COLLAPSE_ACTIVE` (line 77). -/
def MSG_PED_COLLAPSE_ACTIVE : String := "Pedigree collapse for active person"

/-- Message `MSG_NO_PED_COLLAPSE` (line 78). -/
def MSG_NO_PED_COLLAPSE : String := "No pedigree collapse found."

/-- Message `MSG_PED_COLLAPSE_AT` (line 79), with the `%(relationship)s`
substitution applied. -/
def MSG_PED_COLLAPSE_AT (rel : String) : String :=
  "Pedigree collapse at " ++ rel ++ ":"

/-- Message `MSG_MORE_PED_COLLAPSE` (line 80). -/
def MSG_MORE_PED_COLLAPSE : String := "More instances of pedigree collapse not shown."

/-- Message `MSG_PARTNER` (line 83). -/
def MSG_PARTNER : String := "Partner:"

/-- Message `MSG_NO_COMMON_ANCS` (line 86). -/
def MSG_NO_COMMON_ANCS : String := "No common ancestors found."

/-- Markup template `TITLE_FORMAT` (line 90), with the `%s` substitution applied. -/
def TITLE_FORMAT (s : String) : String :=
  "<span size=\"larger\" weight=\"bold\" underline=\"single\">" ++ s ++ "</span>"

/-- Constant `PED_COLLAPSE_LIMIT` (line 92). -/
def PED_COLLAPSE_LIMIT : Nat := 10

/-- Constant `RELATIONSHIP_LIMIT` (line 93). -/
def RELATIONSHIP_LIMIT : Nat := 8

/-- Gramps `Person` gender constants (`Person.MALE`, `Person.FEMALE`,
`Person.UNKNOWN`), as an enumeration. -/
inductive Gender where
  | male
  | female
  | unknown
deriving DecidableEq, Repr

/-! ### Positional arithmetic

Position numbers follow the doubling scheme of spec section 3: position 1 is
the root, position `2n` the father of position `n`, position `2n+1` its mother.
The recursive functions below are written with an explicit fuel argument (with
a proved fuel-irrelevance lemma each) so that they compute by structural
recursion. -/
/-- Fueled generation count: `generation n = ⌊log2 n⌋` (spec section 3).
A fuel of `n` always suffices since the argument at least halves. -/
def generationF : Nat → Nat → Nat
  | 0, _ => 0
  | fuel + 1, n => if n ≤ 1 then 0 else generationF fuel (n / 2) + 1

/-- Generation of a position: `⌊log2 n⌋` for positive `n` (spec section 3,
"Generation of position n is ⌊log2(n)⌋"). -/
def generation (n : Nat) : Nat := generationF n n

/-- Fueled convergence walk of spec section 4.3 step 1: repeatedly replace the
larger of the two position values by its parent (integer halving) until the
two are equal.  A fuel of `a + b` always suffices. -/
def meetF : Nat → Nat → Nat → Nat
  | 0, a, _ => a
  | fuel + 1, a, b =>
    if a = b then a
    else if b < a then meetF fuel (a / 2) b
    else meetF fuel a (b / 2)

/-- Convergence position (collapse point) of two positions: the value at which
the halving walk of spec section 4.3 step 1 makes the two lines meet. -/
def meet (a b : Nat) : Nat := meetF (a + b) a b

/-- Fueled subtree test: `inSubtreeF fuel p r` is true when repeatedly halving
`p` reaches `r`, i.e. when position `p` lies in the subtree rooted at
position `r`.  A fuel of `p` always suffices. -/
def inSubtreeF : Nat → Nat → Nat → Bool
  | 0, p, r => p == r
  | fuel + 1, p, r =>
    if p = r then true
    else if p < r then false
    else inSubtreeF fuel (p / 2) r

/-- Position `p` lies in the subtree rooted at position `r` (that is, `r` is an
ancestor-or-self of `p` in the doubling scheme of spec section 3). -/
def inSubtree (p r : Nat) : Bool := inSubtreeF p p r

/-! ### The pedigree engine, modelled from the spec

The engine lives in `pedigree.py` (class `Pedigree`), which is not among the
provided sources; only its caller `consformatter.py` is.  The definitions in
this section therefore follow the specification text (sections 3 and 4.2-4.5)
rather than source code, as their doc comments record. -/
/-- Modelled from the spec: an `AncestorTree` (spec section 3) as a sparse
mapping from position numbers to individual references, represented as an
association list.  Individual identity is an opaque reference, modelled as a
natural number. -/
abbrev PedTree := List (Nat × Nat)

/-- Present positions of a tree (the domain of the sparse mapping). -/
def positions (t : PedTree) : List Nat := t.map Prod.fst

/-- Individual reference held at a position, `none` when the slot is absent. -/
def refAt (t : PedTree) (n : Nat) : Option Nat := t.lookup n

/-- Modelled from the spec: the duplicate positions of spec section 4.2, as the
list of ordered pairs `(a, b)`, `a < b`, of present positions holding the same
individual reference (each unordered duplicate pair listed once). -/
def dupPairs (t : PedTree) : List (Nat × Nat) :=
  (positions t).flatMap fun a =>
    (positions t).filterMap fun b =>
      if a < b ∧ refAt t a = refAt t b then some (a, b) else none

/-- Modelled from the spec: a duplicate pair has a collapse point exactly when
the two lines properly diverge, i.e. both positions lie strictly below the
convergence position (spec sections 3 and 4.3: the collapse point is the
position whose couple `2d`, `2d+1` the two lines pass through). -/
def pairDiverges (a b : Nat) : Bool := decide (meet a b < a ∧ meet a b < b)

/-- Duplicate pairs that properly diverge (spec section 4.3 step 1). -/
def divergingDupPairs (t : PedTree) : List (Nat × Nat) :=
  (dupPairs t).filter fun p => pairDiverges p.1 p.2

/-- Modelled from the spec: the collapse points of a tree, i.e. the convergence
positions of its diverging duplicate pairs (spec section 4.3 steps 1-2). -/
def collapseKeys (t : PedTree) : List Nat :=
  ((divergingDupPairs t).map fun p => meet p.1 p.2).dedup

/-- Duplicate pairs grouped under one collapse point (spec section 4.3 step 2). -/
def groupPairs (t : PedTree) (d : Nat) : List (Nat × Nat) :=
  (divergingDupPairs t).filter fun p => meet p.1 p.2 == d

/-- Modelled from the spec: `Pedigree.determine_pedigree_collapse`, the mapping
from collapse point to the duplicate pairs that reconverge there (spec section
4.3).  The optional argument restricts the result to one collapse point, as
used by the couple-consanguinity query with collapse point 1 (spec section 4.5,
consformatter.py line 258).  The partitioning of a collapse point's pairs into
relationship classes (spec section 4.3 step 3, left open by section 9) is not
modelled; each collapse point carries its full pair list. -/
def determinePedigreeCollapse (t : PedTree) (restrict : Option Nat) :
    List (Nat × List (Nat × Nat)) :=
  let keys := match restrict with
    | none => collapseKeys t
    | some d => (collapseKeys t).filter (· == d)
  keys.map fun d => (d, groupPairs t d)

/-- Modelled from the spec: `Pedigree.has_pedigree_collapse`, true when some
individual occupies at least two positions of the tree (spec section 3,
`DuplicateGroup`). -/
def hasPedigreeCollapse (t : PedTree) : Bool := !(dupPairs t).isEmpty

/-! ### The ancestor-tree builder, modelled from the spec -/
/-- Fueled form of the builder.  A fuel of `n` suffices for position `n`. -/
def buildSlotF (gp : Nat → Option Nat × Option Nat) (root maxGen : Nat) :
    Nat → Nat → Option Nat
  | 0, _ => none
  | fuel + 1, n =>
    if n = 0 then none
    else if n = 1 then some root
    else
      (buildSlotF gp root maxGen fuel (n / 2)).bind fun r =>
        if generation n ≤ maxGen then
          if n % 2 = 0 then (gp r).1 else (gp r).2
        else none

/-- Modelled from the spec: the `AncestorTree` builder of section 4.1 as a
slot function.  `gp` is the record store's parent lookup (father
reference, mother reference, either possibly absent); position 1 holds the
root individual; position `n ≥ 2` is filled from the parent slot `n / 2`
when that slot is present and the generation bound admits generation `n`,
and is absent otherwise. -/
def buildSlot (gp : Nat → Option Nat × Option Nat) (root maxGen n : Nat) : Option Nat :=
  buildSlotF gp root maxGen n n

/-- A string contains the one-half character `½` used by the half-relationship
marker (consformatter.py line 320). -/
def hasHalf (s : String) : Bool := s.data.any (fun c => c == '½')

/-! ### SimpleStringBuffer (consformatter.py lines 101-126)

`SimpleStringBuffer.__add__` mutates and returns `self`, so object identity is
part of the claimed behaviour.  The class is embedded against an explicit heap
of buffers: an address is an index into the heap, `__init__` allocates a fresh
buffer, and `__add__` takes and returns an address. -/
/-- A heap of `SimpleStringBuffer` objects; each buffer is its `buffer` list of
strings (line 111). -/
structure SSBHeap where
  bufs : List (List String)

/-- Embeds `SimpleStringBuffer.__init__` (lines 107-113): allocates a fresh
buffer, appending the initial string only when it is truthy (non-`None`,
non-empty), and returns the new heap and the address of the new object. -/
def ssbNew (h : SSBHeap) (s : Option String) : SSBHeap × Nat :=
  let buf : List String :=
    match s with
    | some str => if str = "" then [] else [str]
    | none => []
  (⟨h.bufs ++ [buf]⟩, h.bufs.length)

/-- Embeds `SimpleStringBuffer.__add__` (lines 115-120): appends the string to
the buffer at address `a` and returns `self`, i.e. the very same address. -/
def ssbAdd (h : SSBHeap) (a : Nat) (s : String) : SSBHeap × Nat :=
  (⟨h.bufs.set a (h.bufs.getD a [] ++ [s])⟩, a)

/-- Embeds `SimpleStringBuffer.__str__` (lines 122-126): `''.join(self.buffer)`. -/
def ssbToString (h : SSBHeap) (a : Nat) : String :=
  String.join (h.bufs.getD a [])

/-- A finite sequence of `+` operations threaded through the heap, each one
applied to the address returned by the previous one (the way `outstr += s`
uses the result of `__add__`). -/
def ssbAddAll (h : SSBHeap) (a : Nat) : List String → SSBHeap × Nat
  | [] => (h, a)
  | s :: rest => ssbAddAll (ssbAdd h a s).1 (ssbAdd h a s).2 rest

/-! ### format_person (consformatter.py lines 378-401)

The record store and the name displayer are external collaborators; they are
abstracted as `getName` (displayed name of the person behind a handle, `none`
when the handle resolves to nothing and attribute access would raise) and
`infoStr` (the `info_string` birth/death summary for a handle, lines 404-426).
A `None` handle is `none`; the empty string is the other falsy handle value. -/
/-- Python truthiness of a person-handle value (`if person_handle:`, line 384). -/
def handleTruthy : Option String → Bool
  | none => false
  | some s => !(s == "")

/-- Python `'%s' % person_handle` rendering of a handle value. -/
def pyStrHandle : Option String → String
  | none => "None"
  | some s => s

/-- Embeds `ConsFormatter.format_person` (lines 378-401).  Returns `none` when
the body would raise (name lookup failing on a truthy handle); otherwise the
formatted string. -/
def format_person (getName : String → Option String) (infoStr : String → Bool → String)
    (person_handle : Option String) (prestr poststr : String)
    (link dates split : Bool) : Option String :=
  let nameAndDates : Option (String × Bool) :=
    if handleTruthy person_handle then
      match getName (pyStrHandle person_handle) with
      | none => none
      | some name => some (name, dates)
    else
      some (MSG_UNKNOWN_NAME, false)
  nameAndDates.bind fun nd =>
    let outstr :=
      if link then
        "<a href=\"P " ++ pyStrHandle person_handle ++ "\">" ++ nd.1 ++ "</a>"
      else nd.1
    let outstr :=
      if nd.2 then
        let datestr := infoStr (pyStrHandle person_handle) split
        if datestr ≠ "" then
          outstr ++ (if split then "\n" else " ") ++ datestr
        else outstr
      else outstr
    some (prestr ++ outstr ++ poststr)

/-! ### format_common_anc_rels (consformatter.py lines 301-354)

The relationship-string calculator `self.relcalc.get_plural_relationship_string`
is an external Gramps service, abstracted as `relfun`.  A relationship
dictionary (`rel`) maps a generation pair `relnum` to the list of realizing
items `rellist`; each item is an iterable of iterables of numbers, flattened by
`chain.from_iterable` (line 348). -/
/-- One realizing item of a relationship entry (line 347). -/
abbrev RelItem := List (List Int)

/-- The `rel` dictionary argument of `format_common_anc_rels`: relationship
number pair to realizing items (lines 310, 330). -/
abbrev RelDict := List ((Int × Int) × List RelItem)

/-- One item of an `order_ancestor_list` result: primary ancestor numbers
paired with the relationship dictionary (`(primnums, ancs)`, line 219). -/
abbrev AncGroup := List Nat × RelDict

/-- The argument pair handed to `relfun` (lines 334-337): the two remove
values `relnum[0] - generations` and `relnum[1] - generations`, ordered by the
gender of the query's focal individual. -/
def relArgs (active_gender : Gender) (relnum : Int × Int) (generations : Int) :
    Int × Int :=
  if active_gender = Gender.male then
    (relnum.1 - generations, relnum.2 - generations)
  else
    (relnum.2 - generations, relnum.1 - generations)

/-- The `ways` multiplicity marker (line 332). -/
def waysStr (num_rels : Nat) : String :=
  if num_rels > 1 then " x" ++ toString num_rels else ""

/-- The `rel_type` half-relationship marker (line 320). -/
def relTypeStr (half : Bool) : String := if half then " ½" else ""

/-- Python `','.join`: the elements separated by commas. -/
def joinComma : List String → String
  | [] => ""
  | [x] => x
  | x :: y :: xs => x ++ "," ++ joinComma (y :: xs)

/-- The `rellist_str` accumulation (lines 346-348): for each item, the
comma-join of the string forms of its flattened numbers, followed by a
space. -/
def rellistStr (rellist : List RelItem) : String :=
  rellist.foldl
    (fun acc item =>
      acc ++ joinComma ((item.flatten).map toString) ++ " ")
    ""

/-- One iteration of the relationship loop of `format_common_anc_rels`
(lines 330-352), excluding the count/limit control flow. -/
def relEntryStr (relfun : Int → Int → String) (ped_index : Nat) (half : Bool)
    (generations : Int) (active_gender : Gender) (tabs : String)
    (entry : (Int × Int) × List RelItem) : String :=
  let ways := waysStr entry.2.length
  let args := relArgs active_gender entry.1 generations
  let sep := if half || !(ways == "") then "," else ""
  let relstr := relfun args.1 args.2 ++ sep ++ relTypeStr half ++ ways
  let href := "N " ++ toString ped_index ++ " " ++ rellistStr entry.2
  tabs ++ "<a href=\"" ++ href ++ "\">" ++ relstr ++ "</a>\n"

/-- The relationship loop of `format_common_anc_rels` (lines 323-352): `count`
is the number of entries already handled, `tabs` the current separator; at
most `RELATIONSHIP_LIMIT` entries are rendered, then the `MSG_MORE_RELS`
marker is emitted and the loop breaks. -/
def relLoop (relfun : Int → Int → String) (ped_index : Nat) (half : Bool)
    (generations : Int) (active_gender : Gender) :
    RelDict → Nat → String → String
  | [], _, _ => ""
  | e :: rest, count, tabs =>
    if count + 1 > RELATIONSHIP_LIMIT then
      "\t\t\t<b><i>" ++ MSG_MORE_RELS ++ "</i></b>\n"
    else
      relEntryStr relfun ped_index half generations active_gender tabs e ++
      relLoop relfun ped_index half generations active_gender rest (count + 1) "\t\t\t"

/-- Observation of the relationship loop's control flow: the entries actually
rendered and whether the truncation marker was emitted. -/
def relLoopProcessed : RelDict → Nat → RelDict × Bool
  | [], _ => ([], false)
  | e :: rest, count =>
    if count + 1 > RELATIONSHIP_LIMIT then ([], true)
    else
      let pr := relLoopProcessed rest (count + 1)
      (e :: pr.1, pr.2)

/-- Embeds `ConsFormatter.format_common_anc_rels` (lines 301-354).  The
`spouse_gender` parameter is accepted and ignored, as in the source. -/
def format_common_anc_rels (relfun : Int → Int → String) (ped_index : Nat)
    (rel : RelDict) (half : Bool) (generations : Int)
    (active_gender spouse_gender : Gender) : String :=
  let plural := rel.length > 1
  let header :=
    if plural then "\t<b>" ++ MSG_RELATIONSHIPS ++ "</b> "
    else "\t<b>" ++ MSG_RELATIONSHIP ++ "</b> "
  let tabs0 := if plural then "\n\t\t\t" else ""
  header ++ relLoop relfun ped_index half generations active_gender rel 0 tabs0

/-- Embeds `ConsFormatter.format_common_ancestor_names` (lines 283-298), with
the per-ancestor `format_person` rendering (db lookup and markup, lines
293-297) abstracted as `personLine2`. -/
def format_common_ancestor_names (personLine2 : Nat → String)
    (common_ancestors : List Nat) : String :=
  (if common_ancestors.length = 1 then "\t<b>" ++ MSG_COMMON_ANC ++ "</b>\n"
   else "\t<b>" ++ MSG_COMMON_ANCS ++ "</b>\n") ++
  String.join (common_ancestors.map personLine2)

/-! ### get_pedigree_collapse (consformatter.py lines 178-228) -/
/-- The body of one iteration of the collapse loop of `get_pedigree_collapse`
(lines 200-226), excluding the count/limit control flow: header with the
relationship string for `gens = int(log(descnum, 2)) + 1` (line 208, modelled
with the exact `⌊log2⌋`), the two ancestor person lines for positions
`descnum*2` and `descnum*2+1` (lines 203-215, abstracted as `personLine`),
then one `format_common_anc_rels` and `format_common_ancestor_names` block per
ordered common-ancestor group (lines 218-224), then a blank line.  The
composition of `ped_collapse[descnum]` with the engine's
`order_ancestor_list` (line 218, not among the sources) is abstracted as
`orderedAnc`. -/
def pedEntryStr (relfun : Int → Int → String) (personLine : Nat → String)
    (personLine2 : Nat → String) (orderedAnc : Nat → List AncGroup)
    (descnum : Nat) : String :=
  let gens : Nat := generation descnum + 1
  "<b>" ++ MSG_PED_COLLAPSE_AT (relfun (gens : Int) 0) ++ "</b>\n" ++
  personLine (descnum * 2) ++ personLine (descnum * 2 + 1) ++
  String.join ((orderedAnc descnum).map fun g =>
    format_common_anc_rels relfun 0 g.2 (g.1.length == 1) (gens : Int)
      Gender.male Gender.female ++
    format_common_ancestor_names personLine2 g.1) ++
  "\n"

/-- The collapse-point loop of `get_pedigree_collapse` (lines 193-226): at
most `PED_COLLAPSE_LIMIT` collapse points are rendered, then the
`MSG_MORE_PED_COLLAPSE` marker is emitted and the loop breaks. -/
def pedLoop (entry : Nat → String) : List Nat → Nat → String
  | [], _ => ""
  | k :: rest, count =>
    if count + 1 > PED_COLLAPSE_LIMIT then
      "<b><i>" ++ MSG_MORE_PED_COLLAPSE ++ "</i></b>\n"
    else entry k ++ pedLoop entry rest (count + 1)

/-- Observation of the collapse-point loop's control flow: the keys actually
rendered and whether the truncation marker was emitted. -/
def pedLoopProcessed : List Nat → Nat → List Nat × Bool
  | [], _ => ([], false)
  | k :: rest, count =>
    if count + 1 > PED_COLLAPSE_LIMIT then ([], true)
    else
      let pr := pedLoopProcessed rest (count + 1)
      (k :: pr.1, pr.2)

/-- Embeds `ConsFormatter.get_pedigree_collapse` (lines 178-228).
`hasCollapse` is the engine's `has_pedigree_collapse()` answer (line 186) and
`pedKeys` the keys of its `determine_pedigree_collapse()` result (line 191);
the loop iterates `sorted(ped_collapse.keys())` (line 194). -/
def get_pedigree_collapse (relfun : Int → Int → String) (personLine : Nat → String)
    (personLine2 : Nat → String) (orderedAnc : Nat → List AncGroup)
    (hasCollapse : Bool) (pedKeys : List Nat) : String :=
  let title := TITLE_FORMAT MSG_PED_COLLAPSE_ACTIVE ++ "\n\n"
  if !hasCollapse then
    title ++ "<i>" ++ MSG_NO_PED_COLLAPSE ++ "</i>\n\n"
  else
    title ++
      pedLoop (pedEntryStr relfun personLine personLine2 orderedAnc)
        (pedKeys.insertionSort (· ≤ ·)) 0

/-! ### The per-spouse section of get_consanguinity (consformatter.py
lines 245-278) -/
/-- The common-ancestor-group loop of `get_consanguinity` (lines 266-278): at
most `PED_COLLAPSE_LIMIT` groups are rendered, then the
`MSG_MORE_SPOUSE_RELS` marker is emitted and the loop breaks. -/
def spouseLoop (entry : AncGroup → String) : List AncGroup → Nat → String
  | [], _ => ""
  | g :: rest, count =>
    if count + 1 > PED_COLLAPSE_LIMIT then
      "\t<b><i>" ++ MSG_MORE_SPOUSE_RELS ++ "</i></b>\n"
    else entry g ++ spouseLoop entry rest (count + 1)

/-- Observation of the common-ancestor-group loop's control flow. -/
def spouseLoopProcessed : List AncGroup → Nat → List AncGroup × Bool
  | [], _ => ([], false)
  | g :: rest, count =>
    if count + 1 > PED_COLLAPSE_LIMIT then ([], true)
    else
      let pr := spouseLoopProcessed rest (count + 1)
      (g :: pr.1, pr.2)

/-- Embeds the loop body of `ConsFormatter.get_consanguinity` for one spouse
(lines 246-278): the spouse's own person line (lines 250-251, abstracted as
`spouseLine`), the `has_pedigree_collapse` guard (line 253), the
collapse-point search restricted to collapse point 1 (line 258), and the
relationship rendering per ordered common-ancestor group.  The engine's
pedigree of the joint tree is `t`; its `order_ancestor_list` (line 264, not
among the sources) is abstracted as `orderAnc`. -/
def spouseSection (relfun : Int → Int → String) (personLine2 : Nat → String)
    (spouseLine : String) (t : PedTree)
    (orderAnc : List (Nat × Nat) → List AncGroup) (spouse_num : Nat)
    (active_gender spouse_gender : Gender) : String :=
  spouseLine ++
  (if !(hasPedigreeCollapse t) then "\t<i>" ++ MSG_NO_COMMON_ANCS ++ "</i>\n"
   else
     let pc := determinePedigreeCollapse t (some 1)
     if pc.isEmpty then "\t<i>" ++ MSG_NO_COMMON_ANCS ++ "</i>\n"
     else
       let ordered := orderAnc ((pc.lookup 1).getD [])
       spouseLoop
         (fun g =>
           format_common_anc_rels relfun spouse_num g.2 (g.1.length == 1) 1
             active_gender spouse_gender ++
           format_common_ancestor_names personLine2 g.1)
         ordered 0)

/-- The rendered form of a prefix of the relationship loop: the first entry
uses the incoming `tabs`, later entries the fixed `"\t\t\t"` (line 352). -/
def relJoin (relfun : Int → Int → String) (ped_index : Nat) (half : Bool)
    (generations : Int) (active_gender : Gender) (tabs : String) :
    RelDict → String
  | [] => ""
  | e :: rest =>
    relEntryStr relfun ped_index half generations active_gender tabs e ++
    relJoin relfun ped_index half generations active_gender ("\t\t\t") rest

/-! ## Theorems -/

theorem generationF_congr (fuel1 fuel2 n : Nat) (h1 : n ≤ fuel1) (h2 : n ≤ fuel2) :
    generationF fuel1 n = generationF fuel2 n := by
  induction fuel1 generalizing fuel2 n with
  | zero =>
    interval_cases n
    cases fuel2 <;> simp [generationF]
  | succ f ih =>
    cases fuel2 with
    | zero =>
      interval_cases n
      simp [generationF]
    | succ g =>
      simp only [generationF]
      by_cases hn : n ≤ 1
      · simp [hn]
      · simp only [hn, if_false]
        have := ih g (n / 2) (by omega) (by omega)
        omega

/-- Unfolding equation for `generation`. -/
theorem generation_eq (n : Nat) :
    generation n = if n ≤ 1 then 0 else generation (n / 2) + 1 := by
  by_cases hn : n ≤ 1
  · interval_cases n <;> simp [generation, generationF]
  · simp only [generation, hn, if_false]
    have h1 : generationF n n = generationF (n - 1 + 1) n := by
      congr 1; omega
    rw [h1]
    simp only [generationF, hn, if_false]
    have := generationF_congr (n - 1) (n / 2) (n / 2) (by omega) (by omega)
    omega

/-- `generation 1 = 0` (spec section 8: "generation(1) = 0"). -/
theorem generation_one : generation 1 = 0 := rfl

/-- The generation recurrence of spec section 8: for positions below the root,
`generation n = generation (n / 2) + 1`. -/
theorem generation_div2 (n : Nat) (h : 2 ≤ n) :
    generation n = generation (n / 2) + 1 := by
  rw [generation_eq]
  simp [show ¬ n ≤ 1 by omega]

/-- `generation` agrees with the mathematical `⌊log2⌋` (spec section 3). -/
theorem generation_eq_log (n : Nat) : generation n = Nat.log 2 n := by
  induction n using Nat.strong_induction_on with
  | _ n ih =>
    by_cases hn : n ≤ 1
    · interval_cases n <;> simp [generation_eq]
    · have h2 : Nat.log 2 n = Nat.log 2 (n / 2) + 1 :=
        Nat.log_of_one_lt_of_le (by omega) (by omega)
      rw [generation_div2 n (by omega), ih (n / 2) (by omega), h2]

theorem meetF_congr (fuel1 fuel2 a b : Nat) (h1 : a + b ≤ fuel1) (h2 : a + b ≤ fuel2) :
    meetF fuel1 a b = meetF fuel2 a b := by
  induction fuel1 generalizing fuel2 a b with
  | zero =>
    have ha : a = 0 := by omega
    have hb : b = 0 := by omega
    subst ha; subst hb
    cases fuel2 <;> simp [meetF]
  | succ f ih =>
    cases fuel2 with
    | zero =>
      have ha : a = 0 := by omega
      have hb : b = 0 := by omega
      subst ha; subst hb
      simp [meetF]
    | succ g =>
      simp only [meetF]
      by_cases hab : a = b
      · simp [hab]
      · simp only [hab, if_false]
        by_cases hba : b < a
        · simp only [hba, if_true]
          exact ih g (a / 2) b (by omega) (by omega)
        · simp only [hba, if_false]
          exact ih g a (b / 2) (by omega) (by omega)

/-- Unfolding equation for `meet`. -/
theorem meet_eq (a b : Nat) :
    meet a b = if a = b then a else if b < a then meet (a / 2) b else meet a (b / 2) := by
  by_cases hab : a = b
  · subst hab
    cases a <;> simp [meet, meetF]
  · simp only [meet, hab, if_false]
    by_cases hba : b < a
    · simp only [hba, if_true]
      have h1 : a + b = (a + b - 1) + 1 := by omega
      rw [h1]
      simp only [meetF, hab, hba, if_false, if_true]
      exact meetF_congr (a + b - 1) (a / 2 + b) (a / 2) b (by omega) (by omega)
    · simp only [hba, if_false]
      have h1 : a + b = (a + b - 1) + 1 := by omega
      rw [h1]
      simp only [meetF, hab, hba, if_false]
      exact meetF_congr (a + b - 1) (a + b / 2) a (b / 2) (by omega) (by omega)

theorem inSubtreeF_congr (fuel1 fuel2 p r : Nat) (h1 : p ≤ fuel1) (h2 : p ≤ fuel2) :
    inSubtreeF fuel1 p r = inSubtreeF fuel2 p r := by
  induction fuel1 generalizing fuel2 p r with
  | zero =>
    have hp : p = 0 := by omega
    subst hp
    cases fuel2 with
    | zero => rfl
    | succ g =>
      simp only [inSubtreeF]
      by_cases hr : 0 = r
      · simp [← hr]
      · have : 0 < r := by omega
        simp [hr, this, Nat.beq_eq_true_eq, show (0 == r) = false by simpa using hr]
  | succ f ih =>
    cases fuel2 with
    | zero =>
      have hp : p = 0 := by omega
      subst hp
      simp only [inSubtreeF]
      by_cases hr : 0 = r
      · simp [← hr]
      · have : 0 < r := by omega
        simp [hr, this, show (0 == r) = false by simpa using hr]
    | succ g =>
      simp only [inSubtreeF]
      by_cases hpr : p = r
      · simp [hpr]
      · simp only [hpr, if_false]
        by_cases hlt : p < r
        · simp [hlt]
        · simp only [hlt, if_false]
          exact ih g (p / 2) r (by omega) (by omega)

/-- Unfolding equation for `inSubtree`. -/
theorem inSubtree_eq (p r : Nat) :
    inSubtree p r = if p = r then true else if p < r then false else inSubtree (p / 2) r := by
  by_cases hpr : p = r
  · subst hpr
    cases p <;> simp [inSubtree, inSubtreeF]
  · simp only [hpr, if_false]
    by_cases hlt : p < r
    · simp only [hlt, if_true]
      cases p with
      | zero =>
        simp only [inSubtree, inSubtreeF]
        simpa using hpr
      | succ q =>
        simp only [inSubtree, inSubtreeF, hpr, hlt, if_false, if_true]
    · simp only [hlt, if_false]
      have hp : 0 < p := by omega
      have h1 : inSubtree p r = inSubtreeF ((p - 1) + 1) p r := by
        unfold inSubtree
        exact inSubtreeF_congr p ((p - 1) + 1) p r (le_refl p) (by omega)
      rw [h1]
      simp only [inSubtreeF, hpr, hlt, if_false]
      exact inSubtreeF_congr (p - 1) (p / 2) (p / 2) r (by omega) (by omega)

/-! ### Subtree and convergence lemmas -/
theorem inSubtree_refl (a : Nat) : inSubtree a a = true := by
  rw [inSubtree_eq]
  simp

theorem inSubtree_le {p r : Nat} (h : inSubtree p r = true) : r ≤ p := by
  induction p using Nat.strong_induction_on with
  | _ p ih =>
    rw [inSubtree_eq] at h
    by_cases hpr : p = r
    · omega
    · simp only [hpr, if_false] at h
      by_cases hlt : p < r
      · simp [hlt] at h
      · simp only [hlt, if_false] at h
        have := ih (p / 2) (by omega) h
        omega

theorem inSubtree_lift {p r : Nat} (h : inSubtree (p / 2) r = true) :
    inSubtree p r = true := by
  have hr : r ≤ p / 2 := inSubtree_le h
  rw [inSubtree_eq]
  by_cases hpr : p = r
  · simp [hpr]
  · have hlt : ¬ p < r := by omega
    simp [hpr, hlt, h]

theorem inSubtree_one {p : Nat} (h : 1 ≤ p) : inSubtree p 1 = true := by
  induction p using Nat.strong_induction_on with
  | _ p ih =>
    by_cases hp : p = 1
    · simp [hp, inSubtree_refl]
    · rw [inSubtree_eq]
      have h2 : ¬ p < 1 := by omega
      simp only [hp, h2, if_false]
      exact ih (p / 2) (by omega) (by omega)

theorem meet_inSubtree (a b : Nat) :
    inSubtree a (meet a b) = true ∧ inSubtree b (meet a b) = true := by
  generalize hs : a + b = s
  induction s using Nat.strong_induction_on generalizing a b with
  | _ s ih =>
    rw [meet_eq]
    by_cases hab : a = b
    · simp [hab, inSubtree_refl]
    · simp only [hab, if_false]
      by_cases hba : b < a
      · simp only [hba, if_true]
        have h1 := ih (a / 2 + b) (by omega) (a / 2) b rfl
        exact ⟨inSubtree_lift h1.1, h1.2⟩
      · simp only [hba, if_false]
        have h1 := ih (a + b / 2) (by omega) a (b / 2) rfl
        exact ⟨h1.1, inSubtree_lift h1.2⟩

theorem inSubtree_meet {a b r : Nat} (ha : inSubtree a r = true)
    (hb : inSubtree b r = true) : inSubtree (meet a b) r = true := by
  generalize hs : a + b = s
  induction s using Nat.strong_induction_on generalizing a b with
  | _ s ih =>
    rw [meet_eq]
    by_cases hab : a = b
    · simpa [hab] using hb
    · simp only [hab, if_false]
      by_cases hba : b < a
      · simp only [hba, if_true]
        have hrb : r ≤ b := inSubtree_le hb
        have hra : a ≠ r := by omega
        rw [inSubtree_eq] at ha
        have h2 : ¬ a < r := by omega
        simp only [hra, h2, if_false] at ha
        exact ih (a / 2 + b) (by omega) ha hb rfl
      · simp only [hba, if_false]
        have hra : r ≤ a := inSubtree_le ha
        have hab2 : a < b := by omega
        have hrb : b ≠ r := by omega
        rw [inSubtree_eq] at hb
        have h2 : ¬ b < r := by omega
        simp only [hrb, h2, if_false] at hb
        exact ih (a + b / 2) (by omega) ha hb rfl

theorem meet_pos {a b : Nat} (ha : 1 ≤ a) (hb : 1 ≤ b) : 1 ≤ meet a b := by
  generalize hs : a + b = s
  induction s using Nat.strong_induction_on generalizing a b with
  | _ s ih =>
    rw [meet_eq]
    by_cases hab : a = b
    · simpa [hab] using hb
    · simp only [hab, if_false]
      by_cases hba : b < a
      · simp only [hba, if_true]
        exact ih (a / 2 + b) (by omega) (by omega) hb rfl
      · simp only [hba, if_false]
        exact ih (a + b / 2) (by omega) ha (by omega) rfl

theorem inSubtree_child_split {a m : Nat} (h : inSubtree a m = true)
    (hne : a ≠ m) (hm : 1 ≤ m) :
    inSubtree a (2 * m) = true ∨ inSubtree a (2 * m + 1) = true := by
  induction a using Nat.strong_induction_on with
  | _ a ih =>
    have hma : m ≤ a := inSubtree_le h
    rw [inSubtree_eq] at h
    have h2 : ¬ a < m := by omega
    simp only [hne, h2, if_false] at h
    by_cases hhalf : a / 2 = m
    · have : a = 2 * m ∨ a = 2 * m + 1 := by omega
      rcases this with h3 | h3
      · exact Or.inl (h3 ▸ inSubtree_refl _)
      · exact Or.inr (h3 ▸ inSubtree_refl _)
    · have h4 := ih (a / 2) (by omega) h hhalf
      exact h4.imp inSubtree_lift inSubtree_lift

theorem inSubtree_two_or_three {n : Nat} (h : 2 ≤ n) :
    inSubtree n 2 = true ∨ inSubtree n 3 = true := by
  have h1 : inSubtree n 1 = true := inSubtree_one (by omega)
  have h2 := inSubtree_child_split h1 (by omega) (by omega)
  simpa using h2

theorem refAt_isSome {t : PedTree} {n : Nat} (h : n ∈ positions t) :
    (refAt t n).isSome = true := by
  induction t with
  | nil => simp [positions] at h
  | cons hd tl ih =>
    simp only [positions, List.map_cons, List.mem_cons] at h
    simp only [refAt, List.lookup]
    by_cases he : n == hd.fst
    · simp [he]
    · simp only [he, Bool.false_eq_true, if_false]
      rcases h with h | h
      · simp [h] at he
      · exact ih h

theorem mem_dupPairs {t : PedTree} {p : Nat × Nat} :
    p ∈ dupPairs t ↔
      p.1 ∈ positions t ∧ p.2 ∈ positions t ∧ p.1 < p.2 ∧ refAt t p.1 = refAt t p.2 := by
  simp only [dupPairs, List.mem_flatMap, List.mem_filterMap]
  constructor
  · rintro ⟨a, ha, b, hb, hif⟩
    split at hif
    · next hcond =>
      cases hif
      exact ⟨ha, hb, hcond.1, hcond.2⟩
    · exact absurd hif (by simp)
  · rintro ⟨h1, h2, h3, h4⟩
    exact ⟨p.1, h1, p.2, h2, by rw [if_pos ⟨h3, h4⟩]⟩

theorem buildSlotF_congr (gp : Nat → Option Nat × Option Nat) (root maxGen : Nat)
    (fuel1 fuel2 n : Nat) (h1 : n ≤ fuel1) (h2 : n ≤ fuel2) :
    buildSlotF gp root maxGen fuel1 n = buildSlotF gp root maxGen fuel2 n := by
  induction fuel1 generalizing fuel2 n with
  | zero =>
    have hn : n = 0 := by omega
    subst hn
    cases fuel2 <;> simp [buildSlotF]
  | succ f ih =>
    cases fuel2 with
    | zero =>
      have hn : n = 0 := by omega
      subst hn
      simp [buildSlotF]
    | succ g =>
      simp only [buildSlotF]
      by_cases h0 : n = 0
      · simp [h0]
      · simp only [h0, if_false]
        by_cases hone : n = 1
        · simp [hone]
        · simp only [hone, if_false]
          rw [ih g (n / 2) (by omega) (by omega)]

/-- Unfolding equation for `buildSlot`. -/
theorem buildSlot_eq (gp : Nat → Option Nat × Option Nat) (root maxGen n : Nat) :
    buildSlot gp root maxGen n =
      if n = 0 then none
      else if n = 1 then some root
      else
        (buildSlot gp root maxGen (n / 2)).bind fun r =>
          if generation n ≤ maxGen then
            if n % 2 = 0 then (gp r).1 else (gp r).2
          else none := by
  by_cases h0 : n = 0
  · simp [h0, buildSlot, buildSlotF]
  · by_cases hone : n = 1
    · simp [hone, buildSlot, buildSlotF]
    · have h1 : buildSlot gp root maxGen n = buildSlotF gp root maxGen ((n - 1) + 1) n := by
        unfold buildSlot
        exact buildSlotF_congr gp root maxGen n ((n - 1) + 1) n (le_refl n) (by omega)
      rw [h1]
      simp only [buildSlotF, h0, hone, if_false]
      rw [buildSlotF_congr gp root maxGen (n - 1) (n / 2) (n / 2) (by omega) (by omega)]
      rfl

/-! ### String helpers -/
theorem foldl_append_init (l : List String) (s : String) :
    l.foldl (fun r t => r ++ t) s = s ++ l.foldl (fun r t => r ++ t) "" := by
  induction l generalizing s with
  | nil => simp [String.append_empty]
  | cons hd tl ih =>
    simp only [List.foldl_cons]
    rw [ih (s ++ hd), ih ("" ++ hd), String.empty_append, String.append_assoc]

theorem join_cons (s : String) (l : List String) :
    String.join (s :: l) = s ++ String.join l := by
  simp only [String.join, List.foldl_cons]
  rw [foldl_append_init l ("" ++ s), String.empty_append]

theorem join_append (l1 l2 : List String) :
    String.join (l1 ++ l2) = String.join l1 ++ String.join l2 := by
  induction l1 with
  | nil => simp [String.join, String.empty_append]
  | cons hd tl ih =>
    rw [List.cons_append, join_cons, join_cons, ih, String.append_assoc]

theorem hasHalf_append (a b : String) :
    hasHalf (a ++ b) = (hasHalf a || hasHalf b) := by
  simp [hasHalf, String.data_append, List.any_append]

/-! ### Digit renderings never contain the half marker -/
theorem digitChar_ne_half (m : Nat) : Nat.digitChar m ≠ '½' := by
  by_cases h : m < 16
  · interval_cases m <;> decide
  · have h16 : Nat.digitChar m = '*' := by
      unfold Nat.digitChar
      rw [if_neg (show ¬ m = 0 by omega), if_neg (show ¬ m = 1 by omega),
        if_neg (show ¬ m = 2 by omega), if_neg (show ¬ m = 3 by omega),
        if_neg (show ¬ m = 4 by omega), if_neg (show ¬ m = 5 by omega),
        if_neg (show ¬ m = 6 by omega), if_neg (show ¬ m = 7 by omega),
        if_neg (show ¬ m = 8 by omega), if_neg (show ¬ m = 9 by omega),
        if_neg (show ¬ m = 10 by omega), if_neg (show ¬ m = 11 by omega),
        if_neg (show ¬ m = 12 by omega), if_neg (show ¬ m = 13 by omega),
        if_neg (show ¬ m = 14 by omega), if_neg (show ¬ m = 15 by omega)]
    rw [h16]
    decide

theorem toDigitsCore_no_half (fuel : Nat) :
    ∀ (n : Nat) (ds : List Char), (∀ c ∈ ds, c ≠ '½') →
      ∀ c ∈ Nat.toDigitsCore 10 fuel n ds, c ≠ '½' := by
  induction fuel with
  | zero =>
    intro n ds hds
    simpa [Nat.toDigitsCore] using hds
  | succ f ih =>
    intro n ds hds
    simp only [Nat.toDigitsCore]
    have hcons : ∀ c ∈ Nat.digitChar (n % 10) :: ds, c ≠ '½' := by
      intro c hc
      rcases List.mem_cons.mp hc with h | h
      · exact h ▸ digitChar_ne_half (n % 10)
      · exact hds c h
    split
    · exact hcons
    · exact ih (n / 10) (Nat.digitChar (n % 10) :: ds) hcons

theorem natRepr_no_half (n : Nat) : hasHalf (Nat.repr n) = false := by
  have hd : (Nat.repr n).data = Nat.toDigits 10 n := rfl
  simp only [hasHalf, hd]
  rw [List.any_eq_false]
  intro c hc
  have := toDigitsCore_no_half (n + 1) n [] (by simp) c hc
  simpa using this

theorem intToString_no_half (i : Int) : hasHalf (toString i) = false := by
  cases i with
  | ofNat m => exact natRepr_no_half m
  | negSucc m =>
    have h1 : toString (Int.negSucc m) = "-" ++ Nat.repr (m + 1) := rfl
    rw [h1, hasHalf_append, natRepr_no_half]
    rfl

theorem joinComma_no_half (l : List String) (h : ∀ x ∈ l, hasHalf x = false) :
    hasHalf (joinComma l) = false := by
  induction l with
  | nil => rfl
  | cons hd tl ih =>
    cases tl with
    | nil => simpa [joinComma] using h hd (by simp)
    | cons hd2 tl2 =>
      simp only [joinComma, hasHalf_append]
      rw [h hd (by simp), ih (fun x hx => h x (by simp [hx]))]
      rfl

theorem rellistStr_acc_no_half (rl : List RelItem) :
    ∀ acc : String, hasHalf acc = false →
      hasHalf (rl.foldl
        (fun acc item => acc ++ joinComma ((item.flatten).map toString) ++ " ") acc)
        = false := by
  induction rl with
  | nil =>
    intro acc hacc
    simpa using hacc
  | cons hd tl ih =>
    intro acc hacc
    simp only [List.foldl_cons]
    apply ih
    simp only [hasHalf_append, hacc]
    rw [joinComma_no_half]
    · rfl
    · intro x hx
      rcases List.mem_map.mp hx with ⟨i, _, hix⟩
      exact hix ▸ intToString_no_half i

theorem rellistStr_no_half (rl : List RelItem) : hasHalf (rellistStr rl) = false :=
  rellistStr_acc_no_half rl ("") rfl

theorem natToString_no_half (n : Nat) : hasHalf (toString n) = false :=
  natRepr_no_half n

theorem waysStr_no_half (n : Nat) : hasHalf (waysStr n) = false := by
  unfold waysStr
  split
  · rw [hasHalf_append, natToString_no_half]
    rfl
  · rfl

theorem relTypeStr_half (half : Bool) : hasHalf (relTypeStr half) = half := by
  cases half <;> rfl

theorem relEntryStr_half (relfun : Int → Int → String) (ped_index : Nat)
    (half : Bool) (generations : Int) (active_gender : Gender) (tabs : String)
    (e : (Int × Int) × List RelItem)
    (hrf : ∀ x y, hasHalf (relfun x y) = false) (htabs : hasHalf tabs = false) :
    hasHalf (relEntryStr relfun ped_index half generations active_gender tabs e)
      = half := by
  unfold relEntryStr
  have hsep : ∀ c : Bool, hasHalf (if c then "," else "") = false := by
    intro c
    cases c <;> rfl
  simp only [hasHalf_append, htabs, hrf, relTypeStr_half, waysStr_no_half,
    natToString_no_half, rellistStr_no_half, hsep]
  cases half <;> decide

/-! ### Half-marker characterization of the relationship loop -/
theorem relLoop_half_iff (relfun : Int → Int → String) (ped_index : Nat)
    (half : Bool) (generations : Int) (active_gender : Gender)
    (hrf : ∀ x y, hasHalf (relfun x y) = false) :
    ∀ (entries : RelDict) (count : Nat) (tabs : String), hasHalf tabs = false →
      (hasHalf (relLoop relfun ped_index half generations active_gender
          entries count tabs) = true ↔
        (half = true ∧ entries ≠ [] ∧ count < RELATIONSHIP_LIMIT)) := by
  intro entries
  induction entries with
  | nil =>
    intro count tabs htabs
    simp [relLoop, hasHalf]
  | cons e rest ih =>
    intro count tabs htabs
    simp only [relLoop]
    by_cases hcount : count + 1 > RELATIONSHIP_LIMIT
    · rw [if_pos hcount]
      constructor
      · intro habs
        exact absurd habs (by decide)
      · rintro ⟨-, -, hlt⟩
        omega
    · rw [if_neg hcount, hasHalf_append,
        relEntryStr_half relfun ped_index half generations active_gender tabs e hrf htabs,
        Bool.or_eq_true, ih (count + 1) "\t\t\t" rfl]
      constructor
      · rintro (h | ⟨h1, -, -⟩)
        · exact ⟨h, by simp, by omega⟩
        · exact ⟨h1, by simp, by omega⟩
      · rintro ⟨h1, -, -⟩
        exact Or.inl h1

theorem format_common_anc_rels_half_iff (relfun : Int → Int → String)
    (ped_index : Nat) (rel : RelDict) (half : Bool) (generations : Int)
    (active_gender spouse_gender : Gender)
    (hrf : ∀ x y, hasHalf (relfun x y) = false) (hne : rel ≠ []) :
    hasHalf (format_common_anc_rels relfun ped_index rel half generations
        active_gender spouse_gender) = true ↔ half = true := by
  have hmain : ∀ tabs0 : String, hasHalf tabs0 = false →
      (hasHalf (relLoop relfun ped_index half generations active_gender rel 0 tabs0)
          = true ↔ half = true) := by
    intro tabs0 h0
    rw [relLoop_half_iff relfun ped_index half generations active_gender hrf rel 0 tabs0 h0]
    constructor
    · exact fun h => h.1
    · exact fun h => ⟨h, hne, by decide⟩
  have hheader : hasHalf (if rel.length > 1 then "\t<b>" ++ MSG_RELATIONSHIPS ++ "</b> "
      else "\t<b>" ++ MSG_RELATIONSHIP ++ "</b> ") = false := by
    split <;> decide
  have htabs0 : hasHalf (if rel.length > 1 then "\n\t\t\t" else "") = false := by
    split <;> rfl
  simp only [format_common_anc_rels]
  rw [hasHalf_append, Bool.or_eq_true]
  constructor
  · rintro (h | h)
    · rw [hheader] at h
      exact absurd h (by decide)
    · exact (hmain _ htabs0).mp h
  · intro h
    exact Or.inr ((hmain _ htabs0).mpr h)

/-! ### Closed forms of the three capped loops -/
theorem pedLoop_closed (entry : Nat → String) :
    ∀ (keys : List Nat) (count : Nat), count ≤ PED_COLLAPSE_LIMIT →
      pedLoop entry keys count =
        String.join ((keys.take (PED_COLLAPSE_LIMIT - count)).map entry) ++
          (if PED_COLLAPSE_LIMIT - count < keys.length then
            "<b><i>" ++ MSG_MORE_PED_COLLAPSE ++ "</i></b>\n"
          else "") := by
  intro keys
  induction keys with
  | nil =>
    intro count hc
    simp [pedLoop, String.join, String.append_empty]
  | cons k rest ih =>
    intro count hc
    simp only [pedLoop]
    by_cases hcount : count + 1 > PED_COLLAPSE_LIMIT
    · rw [if_pos hcount]
      have h0 : PED_COLLAPSE_LIMIT - count = 0 := by omega
      rw [h0]
      simp [String.join, String.empty_append]
    · rw [if_neg hcount, ih (count + 1) (by omega)]
      have h1 : PED_COLLAPSE_LIMIT - count = (PED_COLLAPSE_LIMIT - (count + 1)) + 1 := by
        omega
      rw [h1, List.take_succ_cons, List.map_cons, join_cons, ← String.append_assoc]
      congr 1
      exact if_congr (by (try simp only [List.length_cons]); omega) rfl rfl

theorem pedLoopProcessed_closed :
    ∀ (keys : List Nat) (count : Nat), count ≤ PED_COLLAPSE_LIMIT →
      pedLoopProcessed keys count =
        (keys.take (PED_COLLAPSE_LIMIT - count),
          decide (PED_COLLAPSE_LIMIT - count < keys.length)) := by
  intro keys
  induction keys with
  | nil =>
    intro count hc
    simp [pedLoopProcessed]
  | cons k rest ih =>
    intro count hc
    simp only [pedLoopProcessed]
    by_cases hcount : count + 1 > PED_COLLAPSE_LIMIT
    · rw [if_pos hcount]
      have h0 : PED_COLLAPSE_LIMIT - count = 0 := by omega
      rw [h0]
      simp
    · rw [if_neg hcount, ih (count + 1) (by omega)]
      have h1 : PED_COLLAPSE_LIMIT - count = (PED_COLLAPSE_LIMIT - (count + 1)) + 1 := by
        omega
      rw [h1, List.take_succ_cons]
      refine Prod.ext rfl ?_
      simp only [List.length_cons]
      exact decide_eq_decide.mpr (by omega)

theorem spouseLoop_closed (entry : AncGroup → String) :
    ∀ (groups : List AncGroup) (count : Nat), count ≤ PED_COLLAPSE_LIMIT →
      spouseLoop entry groups count =
        String.join ((groups.take (PED_COLLAPSE_LIMIT - count)).map entry) ++
          (if PED_COLLAPSE_LIMIT - count < groups.length then
            "\t<b><i>" ++ MSG_MORE_SPOUSE_RELS ++ "</i></b>\n"
          else "") := by
  intro groups
  induction groups with
  | nil =>
    intro count hc
    simp [spouseLoop, String.join, String.append_empty]
  | cons g rest ih =>
    intro count hc
    simp only [spouseLoop]
    by_cases hcount : count + 1 > PED_COLLAPSE_LIMIT
    · rw [if_pos hcount]
      have h0 : PED_COLLAPSE_LIMIT - count = 0 := by omega
      rw [h0]
      simp [String.join, String.empty_append]
    · rw [if_neg hcount, ih (count + 1) (by omega)]
      have h1 : PED_COLLAPSE_LIMIT - count = (PED_COLLAPSE_LIMIT - (count + 1)) + 1 := by
        omega
      rw [h1, List.take_succ_cons, List.map_cons, join_cons, ← String.append_assoc]
      congr 1
      exact if_congr (by (try simp only [List.length_cons]); omega) rfl rfl

theorem spouseLoopProcessed_closed :
    ∀ (groups : List AncGroup) (count : Nat), count ≤ PED_COLLAPSE_LIMIT →
      spouseLoopProcessed groups count =
        (groups.take (PED_COLLAPSE_LIMIT - count),
          decide (PED_COLLAPSE_LIMIT - count < groups.length)) := by
  intro groups
  induction groups with
  | nil =>
    intro count hc
    simp [spouseLoopProcessed]
  | cons g rest ih =>
    intro count hc
    simp only [spouseLoopProcessed]
    by_cases hcount : count + 1 > PED_COLLAPSE_LIMIT
    · rw [if_pos hcount]
      have h0 : PED_COLLAPSE_LIMIT - count = 0 := by omega
      rw [h0]
      simp
    · rw [if_neg hcount, ih (count + 1) (by omega)]
      have h1 : PED_COLLAPSE_LIMIT - count = (PED_COLLAPSE_LIMIT - (count + 1)) + 1 := by
        omega
      rw [h1, List.take_succ_cons]
      refine Prod.ext rfl ?_
      simp only [List.length_cons]
      exact decide_eq_decide.mpr (by omega)

theorem relLoop_closed (relfun : Int → Int → String) (ped_index : Nat)
    (half : Bool) (generations : Int) (active_gender : Gender) :
    ∀ (entries : RelDict) (count : Nat) (tabs : String),
      count ≤ RELATIONSHIP_LIMIT →
      relLoop relfun ped_index half generations active_gender entries count tabs =
        relJoin relfun ped_index half generations active_gender tabs
            (entries.take (RELATIONSHIP_LIMIT - count)) ++
          (if RELATIONSHIP_LIMIT - count < entries.length then
            "\t\t\t<b><i>" ++ MSG_MORE_RELS ++ "</i></b>\n"
          else "") := by
  intro entries
  induction entries with
  | nil =>
    intro count tabs hc
    simp [relLoop, relJoin, String.append_empty]
  | cons e rest ih =>
    intro count tabs hc
    simp only [relLoop]
    by_cases hcount : count + 1 > RELATIONSHIP_LIMIT
    · rw [if_pos hcount]
      have h0 : RELATIONSHIP_LIMIT - count = 0 := by omega
      rw [h0]
      simp [relJoin, String.empty_append]
    · rw [if_neg hcount, ih (count + 1) "\t\t\t" (by omega)]
      have h1 : RELATIONSHIP_LIMIT - count = (RELATIONSHIP_LIMIT - (count + 1)) + 1 := by
        omega
      rw [h1, List.take_succ_cons]
      simp only [relJoin]
      rw [← String.append_assoc]
      congr 1
      exact if_congr (by (try simp only [List.length_cons]); omega) rfl rfl

theorem relLoopProcessed_closed :
    ∀ (entries : RelDict) (count : Nat), count ≤ RELATIONSHIP_LIMIT →
      relLoopProcessed entries count =
        (entries.take (RELATIONSHIP_LIMIT - count),
          decide (RELATIONSHIP_LIMIT - count < entries.length)) := by
  intro entries
  induction entries with
  | nil =>
    intro count hc
    simp [relLoopProcessed]
  | cons e rest ih =>
    intro count hc
    simp only [relLoopProcessed]
    by_cases hcount : count + 1 > RELATIONSHIP_LIMIT
    · rw [if_pos hcount]
      have h0 : RELATIONSHIP_LIMIT - count = 0 := by omega
      rw [h0]
      simp
    · rw [if_neg hcount, ih (count + 1) (by omega)]
      have h1 : RELATIONSHIP_LIMIT - count = (RELATIONSHIP_LIMIT - (count + 1)) + 1 := by
        omega
      rw [h1, List.take_succ_cons]
      refine Prod.ext rfl ?_
      simp only [List.length_cons]
      exact decide_eq_decide.mpr (by omega)

/-! ### SimpleStringBuffer lemmas -/
theorem ssbAdd_addr (h : SSBHeap) (a : Nat) (s : String) : (ssbAdd h a s).2 = a := rfl

theorem ssbAddAll_addr (l : List String) :
    ∀ (h : SSBHeap) (a : Nat), (ssbAddAll h a l).2 = a := by
  induction l with
  | nil => intro h a; rfl
  | cons s rest ih => intro h a; exact ih (ssbAdd h a s).1 a

theorem ssbAdd_getD (h : SSBHeap) (a : Nat) (s : String) (ha : a < h.bufs.length) :
    (ssbAdd h a s).1.bufs.getD a [] = h.bufs.getD a [] ++ [s] := by
  simp [ssbAdd, List.getD, List.getElem?_set_self ha]

theorem ssbAdd_length (h : SSBHeap) (a : Nat) (s : String) :
    (ssbAdd h a s).1.bufs.length = h.bufs.length := by
  simp [ssbAdd]

theorem ssbAddAll_getD (l : List String) :
    ∀ (h : SSBHeap) (a : Nat), a < h.bufs.length →
      (ssbAddAll h a l).1.bufs.getD a [] = h.bufs.getD a [] ++ l := by
  induction l with
  | nil =>
    intro h a ha
    simp [ssbAddAll]
  | cons s rest ih =>
    intro h a ha
    have hlen : a < (ssbAdd h a s).1.bufs.length := by
      rw [ssbAdd_length]; exact ha
    simp only [ssbAddAll, ssbAdd_addr]
    rw [ih (ssbAdd h a s).1 a hlen, ssbAdd_getD h a s ha]
    simp

theorem ssbNew_getD (h : SSBHeap) (s : Option String) :
    (ssbNew h s).1.bufs.getD (ssbNew h s).2 [] =
      (match s with
       | some str => if str = "" then [] else [str]
       | none => []) := by
  simp [ssbNew, List.getD, List.getElem?_concat_length]

theorem ssbNew_addr_lt (h : SSBHeap) (s : Option String) :
    (ssbNew h s).2 < (ssbNew h s).1.bufs.length := by
  simp [ssbNew]

theorem join_match_init (s : Option String) :
    String.join (match s with
      | some str => if str = "" then [] else [str]
      | none => []) = s.getD ("") := by
  cases s with
  | none => rfl
  | some str =>
    by_cases hstr : str = ""
    · simp [hstr, String.join]
    · simp only [hstr, if_false]
      rw [join_cons]
      simp [String.join, String.append_empty, Option.getD]

/-! ### Engine lemmas -/
theorem present_of_inSubtree {t : PedTree}
    (hinv : ∀ n ∈ positions t, 1 < n → n / 2 ∈ positions t) {r : Nat} (hr : 1 ≤ r) :
    ∀ a, a ∈ positions t → inSubtree a r = true → r ∈ positions t := by
  intro a
  induction a using Nat.strong_induction_on with
  | _ a ih =>
    intro ha hs
    rw [inSubtree_eq] at hs
    by_cases har : a = r
    · exact har ▸ ha
    · simp only [har, if_false] at hs
      by_cases hlt : a < r
      · simp [hlt] at hs
      · simp only [hlt, if_false] at hs
        have ha2 : 1 < a := by omega
        exact ih (a / 2) (by omega) (hinv a ha ha2) hs

theorem mem_collapseKeys {t : PedTree} {d : Nat} :
    d ∈ collapseKeys t ↔
      ∃ p ∈ dupPairs t, pairDiverges p.1 p.2 = true ∧ meet p.1 p.2 = d := by
  simp only [collapseKeys, divergingDupPairs, List.mem_dedup, List.mem_map,
    List.mem_filter]
  constructor
  · rintro ⟨p, ⟨hp, hdiv⟩, hmeet⟩
    exact ⟨p, hp, hdiv, hmeet⟩
  · rintro ⟨p, hp, hdiv, hmeet⟩
    exact ⟨p, ⟨hp, hdiv⟩, hmeet⟩

/-- With no individual shared between the two subtrees of a joint spouse tree
(position 2's line and position 3's line), no diverging duplicate pair
converges at position 1, so the collapse-point search restricted to collapse
point 1 comes back empty. -/
theorem determine_restrict_one_empty {t : PedTree}
    (h1 : ∀ n ∈ positions t, 2 ≤ n)
    (h2 : ∀ a ∈ positions t, ∀ b ∈ positions t,
      inSubtree a 2 = true → inSubtree b 3 = true → refAt t a ≠ refAt t b) :
    determinePedigreeCollapse t (some 1) = [] := by
  have hstep : determinePedigreeCollapse t (some 1) =
      ((collapseKeys t).filter (· == 1)).map (fun d => (d, groupPairs t d)) := rfl
  have hfilter : (collapseKeys t).filter (· == 1) = [] := by
    rw [List.filter_eq_nil_iff]
    intro d hd
    simp only [beq_iff_eq]
    intro hd1
    subst hd1
    rcases mem_collapseKeys.mp hd with ⟨p, hp, hdiv, hmeet⟩
    rcases mem_dupPairs.mp hp with ⟨hpa, hpb, hlt, heq⟩
    have ha2 : 2 ≤ p.1 := h1 _ hpa
    have hb2 : 2 ≤ p.2 := h1 _ hpb
    rcases inSubtree_two_or_three ha2 with hA | hA <;>
      rcases inSubtree_two_or_three hb2 with hB | hB
    · have hm := inSubtree_meet hA hB
      rw [hmeet] at hm
      have := inSubtree_le hm
      omega
    · exact h2 _ hpa _ hpb hA hB heq
    · exact h2 _ hpb _ hpa hB hA heq.symm
    · have hm := inSubtree_meet hA hB
      rw [hmeet] at hm
      have := inSubtree_le hm
      omega
  rw [hstep, hfilter]
  rfl

/-! ### Claim theorems -/
/-- C1: the couple-consanguinity query restricts collapse-point search of the
joint spouse pedigree to collapse point 1 only: whenever no individual is
shared between the two partners' lines (the subtrees of positions 2 and 3 of
the joint tree), the per-spouse section renders the "no common ancestors"
result, even if either partner's own line carries arbitrary internal pedigree
collapse. -/
theorem C1_couple_restricted_to_collapse_point_one
    (relfun : Int → Int → String) (personLine2 : Nat → String) (spouseLine : String)
    (t : PedTree) (orderAnc : List (Nat × Nat) → List AncGroup) (spouse_num : Nat)
    (active_gender spouse_gender : Gender)
    (h1 : ∀ n ∈ positions t, 2 ≤ n)
    (h2 : ∀ a ∈ positions t, ∀ b ∈ positions t,
      inSubtree a 2 = true → inSubtree b 3 = true → refAt t a ≠ refAt t b) :
    spouseSection relfun personLine2 spouseLine t orderAnc spouse_num
        active_gender spouse_gender
      = spouseLine ++ ("\t<i>" ++ MSG_NO_COMMON_ANCS ++ "</i>\n") := by
  have hd := determine_restrict_one_empty h1 h2
  simp only [spouseSection, hd]
  cases hc : hasPedigreeCollapse t <;> simp

/-- Witness for C1 at a concrete joint tree: partner A's line (positions 2, 4,
5) has its own pedigree collapse (reference 30 at both positions 4 and 5), yet
no reference is shared with partner B's line (position 3), and the spouse
section is the "no common ancestors" string. -/
theorem C1_witness :
    spouseSection (fun _ _ => "R") (fun _ => "P") "S"
        [(2, 10), (3, 20), (4, 30), (5, 30)] (fun _ => []) 1 Gender.male Gender.female
      = "S" ++ ("\t<i>" ++ MSG_NO_COMMON_ANCS ++ "</i>\n") :=
  C1_couple_restricted_to_collapse_point_one (fun _ _ => "R") (fun _ => "P") "S"
    [(2, 10), (3, 20), (4, 30), (5, 30)] (fun _ => []) 1 Gender.male Gender.female
    (by decide) (by decide)

/-- C7: every key `d` of the self-collapse result has both couple positions
`2d` and `2d+1` present in the ancestor tree, and their slots hold an
individual reference, so resolving the collapse-point couple by direct tree
lookup always succeeds.  The tree is assumed to satisfy the spec's positivity
and parent-presence invariants (spec sections 3 and 8). -/
theorem C7_collapse_couple_present (t : PedTree)
    (h0 : ∀ n ∈ positions t, 1 ≤ n)
    (hinv : ∀ n ∈ positions t, 1 < n → n / 2 ∈ positions t) :
    ∀ d ∈ (determinePedigreeCollapse t none).map Prod.fst,
      2 * d ∈ positions t ∧ 2 * d + 1 ∈ positions t ∧
      (refAt t (2 * d)).isSome = true ∧ (refAt t (2 * d + 1)).isSome = true := by
  intro d hd
  have hkeys : (determinePedigreeCollapse t none).map Prod.fst = collapseKeys t := by
    simp [determinePedigreeCollapse, Function.comp_def]
  rw [hkeys] at hd
  rcases mem_collapseKeys.mp hd with ⟨p, hp, hdiv, hmeet⟩
  rcases mem_dupPairs.mp hp with ⟨hpa, hpb, hlt, heq⟩
  have hdiv2 : meet p.1 p.2 < p.1 ∧ meet p.1 p.2 < p.2 := of_decide_eq_true hdiv
  have ha1 : 1 ≤ p.1 := h0 _ hpa
  have hb1 : 1 ≤ p.2 := h0 _ hpb
  have hdpos : 1 ≤ d := hmeet ▸ meet_pos ha1 hb1
  have hda : d < p.1 := hmeet ▸ hdiv2.1
  have hdb : d < p.2 := hmeet ▸ hdiv2.2
  have hma : inSubtree p.1 d = true := hmeet ▸ (meet_inSubtree p.1 p.2).1
  have hmb : inSubtree p.2 d = true := hmeet ▸ (meet_inSubtree p.1 p.2).2
  have hsplitA := inSubtree_child_split hma (by omega) hdpos
  have hsplitB := inSubtree_child_split hmb (by omega) hdpos
  have hnotsame : ∀ c, 2 * d ≤ c →
      inSubtree p.1 c = true → inSubtree p.2 c = true → False := by
    intro c hc hA hB
    have hm := inSubtree_meet hA hB
    rw [hmeet] at hm
    have := inSubtree_le hm
    omega
  have hpresent : ∀ x, x ∈ positions t → ∀ c, 1 ≤ c →
      inSubtree x c = true → c ∈ positions t := by
    intro x hx c hc hs
    exact present_of_inSubtree hinv hc x hx hs
  rcases hsplitA with hA | hA <;> rcases hsplitB with hB | hB
  · exact (hnotsame (2 * d) (le_refl _) hA hB).elim
  · have hp1 := hpresent p.1 hpa (2 * d) (by omega) hA
    have hp2 := hpresent p.2 hpb (2 * d + 1) (by omega) hB
    exact ⟨hp1, hp2, refAt_isSome hp1, refAt_isSome hp2⟩
  · have hp1 := hpresent p.2 hpb (2 * d) (by omega) hB
    have hp2 := hpresent p.1 hpa (2 * d + 1) (by omega) hA
    exact ⟨hp1, hp2, refAt_isSome hp1, refAt_isSome hp2⟩
  · exact (hnotsame (2 * d + 1) (by omega) hA hB).elim

/-- Witness for C7: a concrete three-generation tree in which reference 30
occupies positions 4 and 6; the collapse point is 1, and positions 2 and 3
are present with resolvable references. -/
theorem C7_witness :
    2 * 1 ∈ positions [(1, 0), (2, 10), (3, 11), (4, 30), (5, 31), (6, 30), (7, 33)] ∧
    2 * 1 + 1 ∈ positions [(1, 0), (2, 10), (3, 11), (4, 30), (5, 31), (6, 30), (7, 33)] ∧
    (refAt [(1, 0), (2, 10), (3, 11), (4, 30), (5, 31), (6, 30), (7, 33)] (2 * 1)).isSome
      = true ∧
    (refAt [(1, 0), (2, 10), (3, 11), (4, 30), (5, 31), (6, 30), (7, 33)]
        (2 * 1 + 1)).isSome = true :=
  C7_collapse_couple_present
    [(1, 0), (2, 10), (3, 11), (4, 30), (5, 31), (6, 30), (7, 33)]
    (by decide) (by decide) 1 (by decide)

/-- C8: in every built ancestor tree, a present position below the root has a
present parent position, and absence is monotonic downward: an absent
position's two child positions are absent as well (never visited). -/
theorem C8_parent_presence_and_absence
    (gp : Nat → Option Nat × Option Nat) (root maxGen n : Nat) :
    (1 < n → (buildSlot gp root maxGen n).isSome = true →
      (buildSlot gp root maxGen (n / 2)).isSome = true) ∧
    (1 ≤ n → buildSlot gp root maxGen n = none →
      buildSlot gp root maxGen (2 * n) = none ∧
      buildSlot gp root maxGen (2 * n + 1) = none) := by
  constructor
  · intro hn hsome
    rw [buildSlot_eq] at hsome
    simp only [show ¬ n = 0 by omega, show ¬ n = 1 by omega, if_false] at hsome
    cases hb : buildSlot gp root maxGen (n / 2) with
    | none =>
      rw [hb] at hsome
      simp at hsome
    | some r => simp
  · intro hn hnone
    constructor
    · rw [buildSlot_eq]
      simp only [show ¬ 2 * n = 0 by omega, show ¬ 2 * n = 1 by omega, if_false]
      rw [show 2 * n / 2 = n by omega, hnone]
      rfl
    · rw [buildSlot_eq]
      simp only [show ¬ 2 * n + 1 = 0 by omega, show ¬ 2 * n + 1 = 1 by omega, if_false]
      rw [show (2 * n + 1) / 2 = n by omega, hnone]
      rfl

/-- Witness for C8 against a concrete record store: position 2 of a depth-2
tree is present with present parent 1, and with a generation bound of 0
position 2 is absent and both its children are absent. -/
theorem C8_witness :
    ((buildSlot (fun r => (if r < 3 then some (r + 10) else none, none)) 0 2 2).isSome
        = true →
      (buildSlot (fun r => (if r < 3 then some (r + 10) else none, none)) 0 2 (2 / 2)).isSome
        = true) ∧
    (buildSlot (fun r => (if r < 3 then some (r + 10) else none, none)) 0 0 (2 * 2) = none ∧
      buildSlot (fun r => (if r < 3 then some (r + 10) else none, none)) 0 0 (2 * 2 + 1)
        = none) :=
  ⟨(C8_parent_presence_and_absence
      (fun r => (if r < 3 then some (r + 10) else none, none)) 0 2 2).1 (by decide),
    (C8_parent_presence_and_absence
      (fun r => (if r < 3 then some (r + 10) else none, none)) 0 0 2).2 (by decide)
      (by decide)⟩

/-- C9: `format_person` with a falsy (absent) individual reference returns
normally, renders the `(unknown)` name, and suppresses all date information
even though `dates=True` was requested; the date service is never consulted
(the result does not depend on `infoStr`). -/
theorem C9_format_person_absent
    (getName : String → Option String) (infoStr : String → Bool → String)
    (person_handle : Option String) (prestr poststr : String) (link split : Bool)
    (hfalsy : handleTruthy person_handle = false) :
    format_person getName infoStr person_handle prestr poststr link true split =
      some (prestr ++
        (if link then
          "<a href=\"P " ++ pyStrHandle person_handle ++ "\">" ++
            MSG_UNKNOWN_NAME ++ "</a>"
        else MSG_UNKNOWN_NAME) ++ poststr) := by
  simp [format_person, hfalsy]

/-- Witness for C9: a `None` handle with a date service that would report
dates; the result is the `(unknown)` link with no date text. -/
theorem C9_witness :
    format_person (fun _ => none) (fun _ _ => "DATES") none "A" "B" true true false =
      some ("A" ++
        (if true then
          "<a href=\"P " ++ pyStrHandle none ++ "\">" ++ MSG_UNKNOWN_NAME ++ "</a>"
        else MSG_UNKNOWN_NAME) ++ "B") :=
  C9_format_person_absent (fun _ => none) (fun _ _ => "DATES") none "A" "B" true false rfl

/-- C10: converting a `SimpleStringBuffer` to a string yields exactly the
left-to-right concatenation of the initial string (if given) and all appended
strings in append order; and `__add__` appends to and returns the very same
buffer object (the same heap address), mutating its left operand. -/
theorem C10_buffer_semantics (h : SSBHeap) (s : Option String) (apps : List String) :
    (ssbAddAll (ssbNew h s).1 (ssbNew h s).2 apps).2 = (ssbNew h s).2 ∧
    ssbToString (ssbAddAll (ssbNew h s).1 (ssbNew h s).2 apps).1 (ssbNew h s).2
      = s.getD ("") ++ String.join apps ∧
    (∀ (h2 : SSBHeap) (a : Nat) (str : String), a < h2.bufs.length →
      (ssbAdd h2 a str).2 = a ∧
      ssbToString (ssbAdd h2 a str).1 a = ssbToString h2 a ++ str) := by
  refine ⟨ssbAddAll_addr apps _ _, ?_, ?_⟩
  · unfold ssbToString
    rw [ssbAddAll_getD apps _ _ (ssbNew_addr_lt h s), ssbNew_getD, join_append,
      join_match_init]
  · intro h2 a str ha
    refine ⟨rfl, ?_⟩
    unfold ssbToString
    rw [ssbAdd_getD h2 a str ha, join_append]
    have hone : String.join [str] = str := by
      rw [join_cons]
      simp [String.join, String.append_empty]
    rw [hone]

/-- Witness for C10 on a concrete buffer: initial string `"ab"` with appends
`"c"`, `"d"` concatenates in order, and a single `+` on an existing buffer
returns the same address and extends its contents. -/
theorem C10_witness :
    ssbToString (ssbAddAll (ssbNew ⟨[]⟩ (some ("ab"))).1 (ssbNew ⟨[]⟩ (some ("ab"))).2
        ["c", "d"]).1 (ssbNew ⟨[]⟩ (some ("ab"))).2
      = (some ("ab")).getD ("") ++ String.join ["c", "d"] ∧
    (ssbAdd ⟨[["x"]]⟩ 0 ("y")).2 = 0 ∧
    ssbToString (ssbAdd ⟨[["x"]]⟩ 0 ("y")).1 0 = ssbToString ⟨[["x"]]⟩ 0 ++ "y" :=
  ⟨(C10_buffer_semantics ⟨[]⟩ (some ("ab")) ["c", "d"]).2.1,
    ((C10_buffer_semantics ⟨[]⟩ (some ("ab")) []).2.2 ⟨[["x"]]⟩ 0 ("y") (by decide)).1,
    ((C10_buffer_semantics ⟨[]⟩ (some ("ab")) []).2.2 ⟨[["x"]]⟩ 0 ("y") (by decide)).2⟩

theorem relLoop_flip (relfun : Int → Int → String) (ped_index : Nat) (half : Bool)
    (generations : Int) :
    ∀ (entries : RelDict) (count : Nat) (tabs : String),
      relLoop relfun ped_index half generations Gender.female entries count tabs =
        relLoop (fun x y => relfun y x) ped_index half generations Gender.male
          entries count tabs := by
  intro entries
  induction entries with
  | nil => intro count tabs; rfl
  | cons e rest ih =>
    intro count tabs
    simp only [relLoop]
    by_cases hc : count + 1 > RELATIONSHIP_LIMIT
    · rw [if_pos hc, if_pos hc]
    · rw [if_neg hc, if_neg hc, ih (count + 1) "\t\t\t"]
      have hentry : relEntryStr relfun ped_index half generations Gender.female tabs e
          = relEntryStr (fun x y => relfun y x) ped_index half generations
              Gender.male tabs e := by
        simp [relEntryStr, relArgs]
      rw [hentry]

/-- C2 counterexample: the truncation limit is not caller-supplied.  A caller
asking for a limit of 3 on four collapse-point entries still gets all four
entries processed and no truncation flag: the loop only honours the fixed
module constant. -/
theorem C2_counterexample :
    ¬ ((pedLoopProcessed [2, 3, 4, 5] 0).1.length ≤ 3 ∧
      (3 < ([2, 3, 4, 5] : List Nat).length →
        (pedLoopProcessed [2, 3, 4, 5] 0).2 = true)) := by
  decide

/-- C2 (amended): the number of reported collapse-point entries is capped at
the fixed module constant `PED_COLLAPSE_LIMIT` (10) in both the self-collapse
and the couple-consanguinity loop, the number of relationship entries per
common-ancestor group is capped at the fixed module constant
`RELATIONSHIP_LIMIT` (8), and in each of the three loops, whenever more
results exist than the limit, the corresponding "more not shown" truncation
marker is emitted rather than the extra results being silently dropped. -/
theorem C2_capped_at_fixed_limits
    (entry : Nat → String) (keys : List Nat)
    (entry2 : AncGroup → String) (groups : List AncGroup)
    (relfun : Int → Int → String) (ped_index : Nat) (half : Bool)
    (generations : Int) (active_gender : Gender) (entries : RelDict)
    (tabs0 : String) :
    (pedLoopProcessed keys 0).1.length ≤ PED_COLLAPSE_LIMIT ∧
    (PED_COLLAPSE_LIMIT < keys.length → (pedLoopProcessed keys 0).2 = true) ∧
    pedLoop entry keys 0 =
      String.join (((pedLoopProcessed keys 0).1).map entry) ++
        (if (pedLoopProcessed keys 0).2 then
          "<b><i>" ++ MSG_MORE_PED_COLLAPSE ++ "</i></b>\n"
        else "") ∧
    (spouseLoopProcessed groups 0).1.length ≤ PED_COLLAPSE_LIMIT ∧
    (PED_COLLAPSE_LIMIT < groups.length → (spouseLoopProcessed groups 0).2 = true) ∧
    spouseLoop entry2 groups 0 =
      String.join (((spouseLoopProcessed groups 0).1).map entry2) ++
        (if (spouseLoopProcessed groups 0).2 then
          "\t<b><i>" ++ MSG_MORE_SPOUSE_RELS ++ "</i></b>\n"
        else "") ∧
    (relLoopProcessed entries 0).1.length ≤ RELATIONSHIP_LIMIT ∧
    (RELATIONSHIP_LIMIT < entries.length → (relLoopProcessed entries 0).2 = true) ∧
    relLoop relfun ped_index half generations active_gender entries 0 tabs0 =
      relJoin relfun ped_index half generations active_gender tabs0
          ((relLoopProcessed entries 0).1) ++
        (if (relLoopProcessed entries 0).2 then
          "\t\t\t<b><i>" ++ MSG_MORE_RELS ++ "</i></b>\n"
        else "") := by
  have hped := pedLoopProcessed_closed keys 0 (Nat.zero_le _)
  have hspo := spouseLoopProcessed_closed groups 0 (Nat.zero_le _)
  have hrel := relLoopProcessed_closed entries 0 (Nat.zero_le _)
  refine ⟨?_, ?_, ?_, ?_, ?_, ?_, ?_, ?_, ?_⟩
  · rw [hped]
    exact List.length_take_le _ _
  · intro hlen
    rw [hped]
    simp only [Nat.sub_zero, decide_eq_true_eq]
    omega
  · rw [pedLoop_closed entry keys 0 (Nat.zero_le _), hped]
    simp [Nat.sub_zero]
  · rw [hspo]
    exact List.length_take_le _ _
  · intro hlen
    rw [hspo]
    simp only [Nat.sub_zero, decide_eq_true_eq]
    omega
  · rw [spouseLoop_closed entry2 groups 0 (Nat.zero_le _), hspo]
    simp [Nat.sub_zero]
  · rw [hrel]
    exact List.length_take_le _ _
  · intro hlen
    rw [hrel]
    simp only [Nat.sub_zero, decide_eq_true_eq]
    omega
  · rw [relLoop_closed relfun ped_index half generations active_gender entries 0 tabs0
      (Nat.zero_le _), hrel]
    simp [Nat.sub_zero]

/-- Witness for C2 (amended): eleven collapse points, eleven spouse
common-ancestor groups and nine relationship entries each raise the
truncation flag. -/
theorem C2_capped_witness :
    (pedLoopProcessed [1, 2, 3, 4, 5, 6, 7, 8, 9, 10, 11] 0).2 = true ∧
    (spouseLoopProcessed (List.replicate 11 (([], []) : AncGroup)) 0).2 = true ∧
    (relLoopProcessed
      (List.replicate 9 ((((0 : Int), (0 : Int)), []) : (Int × Int) × List RelItem))
      0).2 = true := by
  refine ⟨?_, ?_, ?_⟩
  · exact (C2_capped_at_fixed_limits (fun _ => "") [1, 2, 3, 4, 5, 6, 7, 8, 9, 10, 11]
      (fun _ => "") [] (fun _ _ => "") 0 false 0 Gender.male [] "").2.1 (by decide)
  · exact (C2_capped_at_fixed_limits (fun _ => "") [] (fun _ => "")
      (List.replicate 11 ([], [])) (fun _ _ => "") 0 false 0 Gender.male [] ""
      ).2.2.2.2.1 (by decide)
  · exact (C2_capped_at_fixed_limits (fun _ => "") [] (fun _ => "") []
      (fun _ _ => "") 0 false 0 Gender.male
      (List.replicate 9 (((0 : Int), (0 : Int)), [])) "").2.2.2.2.2.2.2.1 (by decide)

/-- C3: within one collapse point, the rendered relationship block of a class
carries the `½` half marker exactly when the class's set of primary ancestor
numbers has exactly one element (the half flag passed at both call sites is
`len(primnums) == 1`); a class with two or more primary ancestor numbers is
rendered full, without the marker.  The external relationship-string service
is assumed not to produce the `½` character itself. -/
theorem C3_half_iff_single_primary
    (relfun : Int → Int → String) (ped_index : Nat) (primnums : List Nat)
    (ancs : RelDict) (generations : Int) (active_gender spouse_gender : Gender)
    (hrf : ∀ x y, hasHalf (relfun x y) = false) (hne : ancs ≠ []) :
    hasHalf (format_common_anc_rels relfun ped_index ancs (primnums.length == 1)
        generations active_gender spouse_gender) = true ↔
      primnums.length = 1 := by
  rw [format_common_anc_rels_half_iff relfun ped_index ancs (primnums.length == 1)
    generations active_gender spouse_gender hrf hne]
  simp

/-- Witness for C3: a single primary ancestor number yields a rendering that
contains the `½` marker. -/
theorem C3_witness :
    hasHalf (format_common_anc_rels (fun _ _ => "") 0 [(((2 : Int), (2 : Int)), [])]
        (([5] : List Nat).length == 1) 1 Gender.male Gender.female) = true :=
  (C3_half_iff_single_primary (fun _ _ => "") 0 [5] [(((2 : Int), (2 : Int)), [])] 1
    Gender.male Gender.female (fun _ _ => rfl) (List.cons_ne_nil _ _)).mpr rfl

/-- C4: the two remove values handed to the relationship-string service are
`relnum[0] - generations` and `relnum[1] - generations`; a male focal
individual presents them in that order and any other gender swapped, so the
unordered pair is gender-independent, and the whole rendering for a female
focal individual equals the male rendering under the argument-flipped
service. -/
theorem C4_remove_values_and_gender_order
    (relfun : Int → Int → String) (ped_index : Nat) (rel : RelDict) (half : Bool)
    (generations : Int) (spouse_gender : Gender) (relnum : Int × Int) (g : Gender) :
    relArgs Gender.male relnum generations
        = (relnum.1 - generations, relnum.2 - generations) ∧
    (g ≠ Gender.male →
      relArgs g relnum generations
        = (relnum.2 - generations, relnum.1 - generations)) ∧
    (relArgs g relnum generations = relArgs Gender.male relnum generations ∨
      relArgs g relnum generations = (relArgs Gender.male relnum generations).swap) ∧
    format_common_anc_rels relfun ped_index rel half generations Gender.female
        spouse_gender
      = format_common_anc_rels (fun x y => relfun y x) ped_index rel half generations
          Gender.male spouse_gender := by
  refine ⟨rfl, ?_, ?_, ?_⟩
  · intro hg
    cases g with
    | male => exact absurd rfl hg
    | female => rfl
    | unknown => rfl
  · cases g with
    | male => exact Or.inl rfl
    | female => exact Or.inr rfl
    | unknown => exact Or.inr rfl
  · simp only [format_common_anc_rels]
    congr 1
    exact relLoop_flip relfun ped_index half generations rel 0
      (if rel.length > 1 then "\n\t\t\t" else "")

/-- Witness for C4 at `relnum = (5, 3)`, `generations = 1`, female focal
individual. -/
theorem C4_witness :
    relArgs Gender.male ((5 : Int), (3 : Int)) 1 = ((5 : Int) - 1, (3 : Int) - 1) ∧
    relArgs Gender.female ((5 : Int), (3 : Int)) 1 = ((3 : Int) - 1, (5 : Int) - 1) ∧
    (relArgs Gender.female ((5 : Int), (3 : Int)) 1
        = relArgs Gender.male ((5 : Int), (3 : Int)) 1 ∨
      relArgs Gender.female ((5 : Int), (3 : Int)) 1
        = (relArgs Gender.male ((5 : Int), (3 : Int)) 1).swap) ∧
    format_common_anc_rels (fun _ _ => "R") 0 [] false 1 Gender.female Gender.male
      = format_common_anc_rels (fun x y => (fun _ _ => "R") y x) 0 [] false 1
          Gender.male Gender.male := by
  have h := C4_remove_values_and_gender_order (fun _ _ => "R") 0 [] false 1
    Gender.male ((5 : Int), (3 : Int)) Gender.female
  exact ⟨h.1, h.2.1 (by decide), h.2.2.1, h.2.2.2⟩

/-- C6: with more collapse points than the configured limit, the formatter
renders exactly `PED_COLLAPSE_LIMIT` entries followed by the truncation
marker, and the rendered entries are the first `PED_COLLAPSE_LIMIT` keys in
ascending collapse-point order. -/
theorem C6_truncated_sorted_output
    (relfun : Int → Int → String) (personLine : Nat → String)
    (personLine2 : Nat → String) (orderedAnc : Nat → List AncGroup)
    (keys : List Nat) (hlen : PED_COLLAPSE_LIMIT < keys.length) :
    (pedLoopProcessed (keys.insertionSort (· ≤ ·)) 0).1
        = (keys.insertionSort (· ≤ ·)).take PED_COLLAPSE_LIMIT ∧
    (pedLoopProcessed (keys.insertionSort (· ≤ ·)) 0).1.length = PED_COLLAPSE_LIMIT ∧
    (pedLoopProcessed (keys.insertionSort (· ≤ ·)) 0).2 = true ∧
    List.Sorted (· ≤ ·) (pedLoopProcessed (keys.insertionSort (· ≤ ·)) 0).1 ∧
    get_pedigree_collapse relfun personLine personLine2 orderedAnc true keys
      = TITLE_FORMAT MSG_PED_COLLAPSE_ACTIVE ++ "\n\n" ++
        (String.join (((pedLoopProcessed (keys.insertionSort (· ≤ ·)) 0).1).map
            (pedEntryStr relfun personLine personLine2 orderedAnc)) ++
          ("<b><i>" ++ MSG_MORE_PED_COLLAPSE ++ "</i></b>\n")) := by
  have hslen : (keys.insertionSort (· ≤ ·)).length = keys.length :=
    (List.perm_insertionSort _ keys).length_eq
  have hp := pedLoopProcessed_closed (keys.insertionSort (· ≤ ·)) 0 (Nat.zero_le _)
  have hp1 : (pedLoopProcessed (keys.insertionSort (· ≤ ·)) 0).1
      = (keys.insertionSort (· ≤ ·)).take PED_COLLAPSE_LIMIT := by
    rw [hp]
    simp [Nat.sub_zero]
  have hp2 : (pedLoopProcessed (keys.insertionSort (· ≤ ·)) 0).2 = true := by
    rw [hp]
    simp only [Nat.sub_zero, decide_eq_true_eq]
    omega
  refine ⟨hp1, ?_, hp2, ?_, ?_⟩
  · rw [hp1, List.length_take]
    omega
  · rw [hp1]
    exact (List.sorted_insertionSort _ keys).sublist (List.take_sublist _ _)
  · have hbranch : get_pedigree_collapse relfun personLine personLine2 orderedAnc true keys
        = (TITLE_FORMAT MSG_PED_COLLAPSE_ACTIVE ++ "\n\n") ++
          pedLoop (pedEntryStr relfun personLine personLine2 orderedAnc)
            (keys.insertionSort (· ≤ ·)) 0 := rfl
    rw [hbranch, pedLoop_closed _ _ 0 (Nat.zero_le _), hp1]
    simp only [Nat.sub_zero]
    rw [if_pos (by rw [hslen]; exact hlen)]

/-- Witness for C6: eleven unsorted keys; the first ten in ascending order are
rendered and the marker follows. -/
theorem C6_witness :
    (pedLoopProcessed (([11, 1, 2, 3, 4, 5, 6, 7, 8, 9, 10] : List Nat).insertionSort
        (· ≤ ·)) 0).1
      = (([11, 1, 2, 3, 4, 5, 6, 7, 8, 9, 10] : List Nat).insertionSort
          (· ≤ ·)).take PED_COLLAPSE_LIMIT ∧
    (pedLoopProcessed (([11, 1, 2, 3, 4, 5, 6, 7, 8, 9, 10] : List Nat).insertionSort
        (· ≤ ·)) 0).2 = true := by
  have h := C6_truncated_sorted_output (fun _ _ => "") (fun _ => "") (fun _ => "")
    (fun _ => []) [11, 1, 2, 3, 4, 5, 6, 7, 8, 9, 10] (by decide)
  exact ⟨h.1, h.2.2.1⟩
